import Mathlib

/-!
Verification of the liteflow2 workflow engine core (pyflow_core.py).

This file gives a shallow embedding of the engine state and operations:
Python dictionaries become association lists over String keys, Python values
that flow through the engine become the inductive type Value, and the
stateful scheduler fragments become explicit state-passing functions.
Nested task handles are represented inside Value by the two fields the
engine ever reads from them: the function name and the stored fingerprint.
-/

namespace PyFlow

/-- Task lifecycle states, from the TaskStatus enum of pyflow_core.py. -/
inductive TaskStatus where
  | PENDING
  | RUNNING
  | COMPLETED
  | FAILED
  | CANCELLED
deriving DecidableEq

/-- Printable name of a status, mirroring the .name attribute of the enum. -/
def TaskStatus.name : TaskStatus → String
  | .PENDING => "PENDING"
  | .RUNNING => "RUNNING"
  | .COMPLETED => "COMPLETED"
  | .FAILED => "FAILED"
  | .CANCELLED => "CANCELLED"

/-- Python values that flow through the engine as task arguments and results.
A nested TaskOutput appearing inside an argument is represented by vHandle
carrying the function name and the stored fingerprint, the only two fields
of a nested handle that pyflow_core.py ever reads (in _generate_id,
get_dependencies, argument resolution and __repr__). -/
inductive Value where
  | vNone : Value
  | vBool (b : Bool) : Value
  | vInt (n : Int) : Value
  | vStr (s : String) : Value
  | vList (xs : List Value) : Value
  | vTuple (xs : List Value) : Value
  | vDict (kvs : List (String × Value)) : Value
  | vHandle (fn : String) (fid : String) : Value

/-- Lookup in an association list, modelling Python dict indexing and .get. -/
def alookup {α : Type} : List (String × α) → String → Option α
  | [], _ => none
  | (k2, v) :: rest, k => if k2 = k then some v else alookup rest k

/-- Overwriting insertion into an association list, modelling dict assignment. -/
def ainsert {α : Type} : List (String × α) → String → α → List (String × α)
  | [], k, v => [(k, v)]
  | (k2, v2) :: rest, k, v =>
      if k2 = k then (k, v) :: rest else (k2, v2) :: ainsert rest k v

/-- Keys of an association list. -/
def akeys {α : Type} (l : List (String × α)) : List String := l.map Prod.fst

/-- Insertion step of a stable insertion sort with a boolean order. -/
def insertByLe {α : Type} (le : α → α → Bool) (a : α) : List α → List α
  | [] => [a]
  | b :: l => if le a b then a :: b :: l else b :: insertByLe le a l

/-- Insertion sort with a boolean order. Models the Python builtin sorted:
on the kwargs item lists it is applied to, the keys are distinct (they come
from a dict), so the sorted result is unique and any correct sort computes it. -/
def sortByLe {α : Type} (le : α → α → Bool) : List α → List α
  | [] => []
  | a :: l => insertByLe le a (sortByLe le l)

/-- Key order on kwargs items: Python compares (key, value) tuples, but the
keys of a dict are distinct, so the comparison is decided by the keys. -/
def kvLe (p q : String × Value) : Bool := decide (p.1 ≤ q.1)

/-- String order used when the scheduler sorts the failed-task ids. -/
def strLe (p q : String) : Bool := decide (p ≤ q)

/-- Escape a character for a JSON string literal (quote and backslash; the
engine only ever serializes such characters in practice). -/
def escapeJsonChar (c : Char) : String :=
  if c = Char.ofNat 34 then String.singleton (Char.ofNat 92) ++ String.singleton (Char.ofNat 34)
  else if c = Char.ofNat 92 then String.singleton (Char.ofNat 92) ++ String.singleton (Char.ofNat 92)
  else String.singleton c

/-- JSON rendering of a string with surrounding quotes. -/
def jsonStr (s : String) : String :=
  String.singleton (Char.ofNat 34) ++ String.join (s.toList.map escapeJsonChar) ++ String.singleton (Char.ofNat 34)

/-- Comma-space separator join, as produced by the default json.dumps. -/
def commaSep : List String → String
  | [] => ""
  | [s] => s
  | s :: rest => s ++ ", " ++ commaSep rest

mutual

/-- Model of json.dumps with sort_keys=True on a Value: lists and tuples
render as arrays, dicts render as objects with keys sorted. -/
def jsonDumps : Value → String
  | .vNone => "null"
  | .vBool b => if b then "true" else "false"
  | .vInt n => toString n
  | .vStr s => jsonStr s
  | .vList xs => "[" ++ commaSep (jsonDumpsList xs) ++ "]"
  | .vTuple xs => "[" ++ commaSep (jsonDumpsList xs) ++ "]"
  | .vDict kvs =>
      "\x7b" ++ commaSep ((sortByLe (fun p q => decide (p.1 ≤ q.1)) (jsonDumpsKVs kvs)).map
        (fun kv => jsonStr kv.1 ++ ": " ++ kv.2)) ++ "\x7d"
  | .vHandle _ fid => "<unserializable TaskOutput " ++ fid ++ ">"

/-- Worker for jsonDumps on the elements of a sequence. -/
def jsonDumpsList : List Value → List String
  | [] => []
  | v :: vs => jsonDumps v :: jsonDumpsList vs

/-- Worker for jsonDumps on the items of a mapping, rendering each value. -/
def jsonDumpsKVs : List (String × Value) → List (String × String)
  | [] => []
  | (k, v) :: kvs => (k, jsonDumps v) :: jsonDumpsKVs kvs

end

/-- Escape a character for a Python repr string literal. -/
def escapeReprChar (c : Char) : String :=
  if c = Char.ofNat 39 then String.singleton (Char.ofNat 92) ++ String.singleton (Char.ofNat 39)
  else if c = Char.ofNat 92 then String.singleton (Char.ofNat 92) ++ String.singleton (Char.ofNat 92)
  else String.singleton c

/-- Python repr of a string with single quotes. -/
def reprStr (s : String) : String :=
  String.singleton (Char.ofNat 39) ++ String.join (s.toList.map escapeReprChar) ++ String.singleton (Char.ofNat 39)

/-- Python repr of a tuple from the rendered elements: a one-element tuple
carries a trailing comma. -/
def tupleRepr : List String → String
  | [r] => "(" ++ r ++ ",)"
  | rs => "(" ++ commaSep rs ++ ")"

mutual

/-- Model of the Python str()/repr() rendering used by the fallback branch of
_generate_id. After prep_for_hash, the rendered structure contains only
scalars, strings, tuples and nested handles, so those are the cases that
matter; list and dict are rendered in repr style for totality. -/
def pyRepr : Value → String
  | .vNone => "None"
  | .vBool b => if b then "True" else "False"
  | .vInt n => toString n
  | .vStr s => reprStr s
  | .vList xs => "[" ++ commaSep (pyReprList xs) ++ "]"
  | .vTuple xs => tupleRepr (pyReprList xs)
  | .vDict kvs => "\x7b" ++ commaSep ((pyReprKVs kvs).map
      (fun kv => reprStr kv.1 ++ ": " ++ kv.2)) ++ "\x7d"
  | .vHandle fn fid => "<TaskOutput of " ++ fn ++ " (ID: " ++ fid ++ ")>"

/-- Worker for pyRepr on sequence elements. -/
def pyReprList : List Value → List String
  | [] => []
  | v :: vs => pyRepr v :: pyReprList vs

/-- Worker for pyRepr on mapping items. -/
def pyReprKVs : List (String × Value) → List (String × String)
  | [] => []
  | (k, v) :: kvs => (k, pyRepr v) :: pyReprKVs kvs

end

mutual

/-- Whether a Python value is hashable: lists and dicts are not, a tuple is
hashable when all its elements are, everything else the engine passes around
(None, bool, int, str, TaskOutput) is hashable. -/
def isHashable : Value → Bool
  | .vList _ => false
  | .vDict _ => false
  | .vTuple xs => allHashable xs
  | _ => true

/-- Worker for isHashable on tuple elements. -/
def allHashable : List Value → Bool
  | [] => true
  | v :: vs => isHashable v && allHashable vs

end

/-- Model of prep_for_hash from TaskOutput._generate_id: a nested handle
becomes its fingerprint marker string, a list or dict becomes its JSON
serialization (a string), a hashable value is kept as is, and an unhashable
value (a tuple containing a list or dict) falls back to its str(). -/
def prepForHash (v : Value) : Value :=
  match v with
  | .vHandle _ fid => .vStr ("<TaskOutput:" ++ fid ++ ">")
  | .vList xs => .vStr (jsonDumps (.vList xs))
  | .vDict kvs => .vStr (jsonDumps (.vDict kvs))
  | .vTuple xs => if allHashable xs then .vTuple xs else .vStr (pyRepr (.vTuple xs))
  | v => v

mutual

/-- Whether a prepared value is JSON-serializable: after prep_for_hash the
only non-serializable values left are handles surviving inside tuples. -/
def jsonSafe : Value → Bool
  | .vHandle _ _ => false
  | .vList xs => allJsonSafe xs
  | .vTuple xs => allJsonSafe xs
  | .vDict kvs => allJsonSafeKVs kvs
  | _ => true

/-- Worker for jsonSafe on sequence elements. -/
def allJsonSafe : List Value → Bool
  | [] => true
  | v :: vs => jsonSafe v && allJsonSafe vs

/-- Worker for jsonSafe on mapping items. -/
def allJsonSafeKVs : List (String × Value) → Bool
  | [] => true
  | (_, v) :: kvs => jsonSafe v && allJsonSafeKVs kvs

end

/-- The combined (args_for_hash, kwargs_for_hash) structure serialized by
_generate_id: a pair of tuples, each kwargs item being a (key, value) tuple. -/
def hashPayload (args : List Value) (kwargs : List (String × Value)) : Value :=
  .vTuple [.vTuple (args.map prepForHash),
           .vTuple (kwargs.map (fun kv => .vTuple [.vStr kv.1, prepForHash kv.2]))]

/-- Model of TaskOutput._generate_id. The source feeds the returned string
through md5 and truncates the hex digest to ten characters; the digest is a
pure function of this string, so every fingerprint-equality statement proved
about this definition transfers to the truncated digest, and no claim in
this development depends on hash collisions. The kwargs argument is the
already-sorted item list stored on the handle. -/
def generateId (funcName : String) (args : List Value)
    (kwargs : List (String × Value)) : String :=
  let payload := hashPayload args kwargs
  let argString := if jsonSafe payload then jsonDumps payload else pyRepr payload
  funcName ++ ":" ++ argString

/-- Model of the TaskOutput placeholder: the function name, the positional
arguments, the keyword-argument items sorted by key as done in __init__,
and the fingerprint computed and stored at construction time. -/
structure TaskOutput where
  funcName : String
  call_args : List Value
  call_kwargs : List (String × Value)
  id : String

/-- Model of TaskOutput.__init__: store the args, sort the kwargs items and
compute the fingerprint. -/
def mkTaskOutput (funcName : String) (args : List Value)
    (kwargs : List (String × Value)) : TaskOutput :=
  let sorted := sortByLe kvLe kwargs
  ⟨funcName, args, sorted, generateId funcName args sorted⟩

/-- Add a fingerprint to a dependency accumulator, keeping set semantics
(Python uses a set; we keep first-insertion order in a duplicate-free list). -/
def addDep (d : String) (acc : List String) : List String :=
  if d ∈ acc then acc else acc ++ [d]

/-- Scan the elements of a one-level sequence for handles, as the inner
loops of get_dependencies do. -/
def depsOfSeq (acc : List String) : List Value → List String
  | [] => acc
  | .vHandle _ fid :: rest => depsOfSeq (addDep fid acc) rest
  | _ :: rest => depsOfSeq acc rest

/-- Scan one argument value for handles: a handle contributes its
fingerprint, a list or tuple is scanned one level deep, nothing else is
traversed (in particular mappings are not). -/
def depsOfValue (acc : List String) : Value → List String
  | .vHandle _ fid => addDep fid acc
  | .vList xs => depsOfSeq acc xs
  | .vTuple xs => depsOfSeq acc xs
  | _ => acc

/-- Model of TaskOutput.get_dependencies: positional arguments first, then
keyword-argument values. -/
def getDependencies (t : TaskOutput) : List String :=
  let afterArgs := t.call_args.foldl depsOfValue []
  t.call_kwargs.foldl (fun acc kv => depsOfValue acc kv.2) afterArgs

/-- Resolution of one argument at submission time, from Workflow.run: a
top-level handle is replaced by the recorded result of its fingerprint
(none models the KeyError branch); any other value, including a sequence
that contains handles, is passed through unchanged. -/
def resolveOne (results : List (String × Value)) (v : Value) : Option Value :=
  match v with
  | .vHandle _ fid => alookup results fid
  | v => some v

/-- Resolution of the positional arguments of a ready task. -/
def resolveArgs (results : List (String × Value)) : List Value → Option (List Value)
  | [] => some []
  | v :: vs =>
      match resolveOne results v, resolveArgs results vs with
      | some r, some rs => some (r :: rs)
      | _, _ => none

/-- Resolution of the keyword arguments of a ready task. -/
def resolveKwargs (results : List (String × Value)) :
    List (String × Value) → Option (List (String × Value))
  | [] => some []
  | (k, v) :: kvs =>
      match resolveOne results v, resolveKwargs results kvs with
      | some r, some rs => some ((k, r) :: rs)
      | _, _ => none

/-- The per-run maps populated by Workflow._build_dag, together with the
warnings it logs. Every print statement inside _build_dag in the source is
commented out, so the function never appends to the warnings trace. -/
structure DagState where
  task_dependencies : List (String × List String)
  task_dependents : List (String × List String)
  task_status : List (String × TaskStatus)
  warnings : List String

/-- The empty per-run DAG state, as left by the reset at the top of run. -/
def emptyDagState : DagState := ⟨[], [], [], []⟩

/-- Record cur as a dependent of dep, creating the set if absent, from the
dependents update inside _build_dag (performed for every dependency
fingerprint, known or not). -/
def addDependent (dependents : List (String × List String)) (dep cur : String) :
    List (String × List String) :=
  match alookup dependents dep with
  | none => ainsert dependents dep [cur]
  | some s => ainsert dependents dep (addDep cur s)

/-- The inner loop of _build_dag over the dependencies of the current task:
update the dependents map for every dependency, and enqueue a dependency
only when it is unvisited, unprocessed and present in task_calls. -/
def processDeps (calls : List (String × TaskOutput)) (cur : String) (visited : List String) :
    List String → DagState → List String → List String → DagState × List String × List String
  | [], st, queue, processed => (st, queue, processed)
  | dep :: rest, st, queue, processed =>
      let st2 := { st with task_dependents := addDependent st.task_dependents dep cur }
      if dep ∉ visited ∧ dep ∉ processed ∧ (alookup calls dep).isSome then
        processDeps calls cur visited rest st2 (queue ++ [dep]) (processed ++ [dep])
      else
        processDeps calls cur visited rest st2 queue processed

/-- The breadth-first traversal of _build_dag, with explicit fuel for the
loop. Returns the populated maps together with the final visited and
processed sets carried by the loop. An id popped from the queue that is not
a known task call is skipped silently (the warning in the source is
commented out). -/
def buildDagAux (calls : List (String × TaskOutput)) :
    Nat → List String → List String → List String → DagState →
    DagState × List String × List String
  | 0, _, visited, processed, st => (st, visited, processed)
  | _ + 1, [], visited, processed, st => (st, visited, processed)
  | fuel + 1, cur :: queue, visited, processed, st =>
      if cur ∈ visited then buildDagAux calls fuel queue visited processed st
      else
        let visited2 := cur :: visited
        match alookup calls cur with
        | none => buildDagAux calls fuel queue visited2 processed st
        | some t =>
            let deps := getDependencies t
            let st1 := { st with
              task_dependencies := ainsert st.task_dependencies cur deps,
              task_status := ainsert st.task_status cur .PENDING }
            let r := processDeps calls cur visited2 deps st1 queue processed
            buildDagAux calls fuel r.2.1 visited2 r.2.2 r.1

/-- Model of Workflow._build_dag from a target fingerprint. Every queue
iteration pops one id, and each distinct id enters the queue at most once
(the processed set guards pushes and only ids present in task_calls are
pushed), so one unit of fuel per known task call plus one for the initial
target always runs the loop to completion. -/
def buildDag (calls : List (String × TaskOutput)) (target : String) :
    DagState × List String × List String :=
  buildDagAux calls (calls.length + 1) [target] [] [] emptyDagState

/-- The scheduler state mutated by the failure-propagation walk: the status
map and the tasks_failed set (kept as a list). -/
structure CancelState where
  task_status : List (String × TaskStatus)
  tasks_failed : List String

/-- The breadth-first cancellation walk from Workflow.run: pop a dependent,
skip it when already visited, and when it is a known task call that is still
PENDING, mark it CANCELLED, add it to tasks_failed and enqueue its own
dependents that are not yet visited. Only PENDING tasks are ever modified.
Returns the final state together with the visited set of the walk. -/
def propagateCancel (dependents : List (String × List String)) (knownIds : List String) :
    Nat → List String → List String → CancelState → CancelState × List String
  | 0, _, visited, st => (st, visited)
  | _ + 1, [], visited, st => (st, visited)
  | fuel + 1, d :: queue, visited, st =>
      if d ∈ visited then propagateCancel dependents knownIds fuel queue visited st
      else
        let visited2 := d :: visited
        if d ∈ knownIds then
          if alookup st.task_status d = some .PENDING then
            let st2 : CancelState := ⟨ainsert st.task_status d .CANCELLED, d :: st.tasks_failed⟩
            let newq := ((alookup dependents d).getD []).filter (fun y => y ∉ visited2)
            propagateCancel dependents knownIds fuel (queue ++ newq) visited2 st2
          else propagateCancel dependents knownIds fuel queue visited2 st
        else propagateCancel dependents knownIds fuel queue visited2 st

/-- All ids mentioned by the dependents map, keys and values together. -/
def allGraphIds (dependents : List (String × List String)) : List String :=
  dependents.foldr (fun kv acc => kv.1 :: (kv.2 ++ acc)) []

/-- Fuel that always suffices for the cancellation walk started at t: the
initial queue length plus, for every id the graph mentions, one pop plus the
length of its dependent list, plus one. -/
def cancelFuel (dependents : List (String × List String)) (t : String) : Nat :=
  ((alookup dependents t).getD []).length +
    ((allGraphIds dependents).map (fun x => 1 + ((alookup dependents x).getD []).length)).sum + 1

/-- Model of the failure-propagation block of Workflow.run for a task t that
just failed: the queue starts with the dependents of t and the visited set
with t itself. -/
def runCancellation (dependents : List (String × List String)) (knownIds : List String)
    (t : String) (st : CancelState) : CancelState × List String :=
  propagateCancel dependents knownIds (cancelFuel dependents t)
    ((alookup dependents t).getD []) [t] st

/-- One line of the failure summary printed at the end of an unsuccessful
run: the fingerprint, the function name when the task call is known, and the
status label (the source falls back to the text UNKNOWN for a missing
status, and to a fixed FAILED/CANCELLED line for an unknown task call). -/
structure SummaryEntry where
  tid : String
  taskName : Option String
  statusLabel : String

/-- The failure summary of Workflow.run: the tasks_failed set, sorted. -/
def summaryOf (calls : List (String × TaskOutput)) (status : List (String × TaskStatus))
    (failed : List String) : List SummaryEntry :=
  (sortByLe strLe failed).map (fun tid =>
    match alookup calls tid with
    | some t => ⟨tid, some t.funcName,
        match alookup status tid with
        | some s => s.name
        | none => "UNKNOWN"⟩
    | none => ⟨tid, none, "FAILED/CANCELLED"⟩)

/-- Model of the final check of Workflow.run (after the scheduler loop): if
the target is in tasks_failed or its status is not COMPLETED, the run raises
the workflow failure carrying the summary; otherwise it returns the result
recorded for the target (a dict .get, hence an Option). -/
def finishRun (calls : List (String × TaskOutput)) (status : List (String × TaskStatus))
    (results : List (String × Value)) (failed : List String) (target : String) :
    Except (List SummaryEntry) (Option Value) :=
  if target ∈ failed ∨ alookup status target ≠ some .COMPLETED then
    .error (summaryOf calls status failed)
  else
    .ok (alookup results target)

/-- Outcome of launching one shell command: exit status and both captured
streams. An osExec argument of this type models the operating system. -/
structure ShellResult where
  returncode : Int
  stdout : String
  stderr : String

/-- The data carried by subprocess.CalledProcessError when check=True fires:
the non-zero return code and both captured streams. -/
structure CalledProcessError where
  returncode : Int
  stdout : String
  stderr : String

/-- Model of run_shell: the command runs through the shell with output
capture, and a non-zero exit status raises CalledProcessError carrying the
return code, the captured stdout and the captured stderr, which run_shell
re-raises after printing. The command-log writing only prints warnings on
failure and never changes the outcome, so it does not appear in the result. -/
def run_shell (command : String) (cwd : Option String) (commandLogFile : Option String)
    (osExec : String → Option String → ShellResult) : Except CalledProcessError String :=
  let r := osExec command cwd
  if r.returncode = 0 then .ok r.stdout else .error ⟨r.returncode, r.stdout, r.stderr⟩

/-- A flat model of the filesystem as seen through os.path.lexists and
os.symlink: the set of paths that exist (as a list) and, for symbolic
links, the target each link points to. -/
structure FileSystem where
  existingPaths : List String
  symlinkTargets : List (String × String)
deriving DecidableEq

/-- Character-list prefix test; returns true when the first list is a
prefix of the second. -/
def isPrefixList : List Char → List Char → Bool
  | [], _ => true
  | _ :: _, [] => false
  | c :: cs, d :: ds => if c = d then isPrefixList cs ds else false

/-- Model of the Python str.startswith test (string-prefix semantics). -/
def strStartsWith (s p : String) : Bool := isPrefixList p.toList s.toList

/-- Whether a path string is absolute. -/
def isAbsPath (p : String) : Bool := strStartsWith p "/"

/-- Model of os.path.abspath for already-normalized paths: an absolute path
is returned unchanged, a relative one is joined to the current directory.
The dot-segment normalization performed by the real abspath is not
modelled; theorems are instantiated at normalized paths. -/
def absPath (cwd p : String) : String := if isAbsPath p then p else cwd ++ "/" ++ p

/-- Worker for pyBasename: keep the characters seen since the last slash. -/
def basenameChars : List Char → List Char → List Char
  | [], acc => acc
  | c :: cs, acc =>
      if c = Char.ofNat 47 then basenameChars cs [] else basenameChars cs (acc ++ [c])

/-- Model of os.path.basename: the text after the last slash. -/
def pyBasename (p : String) : String := String.mk (basenameChars p.toList [])

/-- Character sanitization of the link basename from _create_input_symlink:
alphanumeric characters, dash, underscore and dot are kept, everything else
becomes an underscore. -/
def safeChar (c : Char) : Char :=
  if c.isAlphanum || c = Char.ofNat 45 || c = Char.ofNat 95 || c = Char.ofNat 46 then c
  else Char.ofNat 95

/-- Sanitized basename. -/
def safeName (s : String) : String := String.mk (s.toList.map safeChar)

/-- The full path of the symlink that _create_input_symlink would create in
absLinkDir for absSource under the given name tag. -/
def linkNameFor (absLinkDir pfx absSource : String) : String :=
  let base := pyBasename absSource
  let base2 := if base = "" then "source" else base
  absLinkDir ++ "/" ++ pfx ++ "_" ++ safeName base2

/-- Remove a path and any symlink record at it, modelling os.remove. -/
def removePath (fs : FileSystem) (p : String) : FileSystem :=
  ⟨fs.existingPaths.filter (fun q => q ≠ p), fs.symlinkTargets.filter (fun kv => kv.1 ≠ p)⟩

/-- Ensure a directory path exists, modelling os.makedirs(exist_ok=True). -/
def mkdirs (fs : FileSystem) (p : String) : FileSystem :=
  if p ∈ fs.existingPaths then fs else ⟨p :: fs.existingPaths, fs.symlinkTargets⟩

/-- Model of _create_input_symlink: skip non-string sources and sources that
do not exist; make both paths absolute; refuse when the absolute source
starts with the absolute destination directory and differs from it; ensure
the destination exists, replace any entry already at the link path, and
create the symlink pointing at the absolute source. -/
def create_input_symlink (fs : FileSystem) (cwd : String) (source : Value)
    (linkDir : String) (pfx : String) : FileSystem :=
  match source with
  | .vStr sp =>
      if sp ∈ fs.existingPaths then
        let absSource := absPath cwd sp
        let absLinkDir := absPath cwd linkDir
        let linkName := linkNameFor absLinkDir pfx absSource
        if strStartsWith absSource absLinkDir ∧ absSource ≠ absLinkDir then fs
        else
          let fs1 := mkdirs fs absLinkDir
          let fs2 := if linkName ∈ fs1.existingPaths then removePath fs1 linkName else fs1
          ⟨linkName :: fs2.existingPaths, (linkName, absSource) :: fs2.symlinkTargets⟩
      else fs
  | _ => fs

/-- The per-instance dictionaries of the Workflow class that run touches. -/
structure Workflow where
  task_calls : List (String × TaskOutput)
  task_results : List (String × Value)
  task_status : List (String × TaskStatus)
  task_dependencies : List (String × List String)
  task_dependents : List (String × List String)

/-- Outcome of the entry phase of Workflow.run: either the early return of a
non-handle target, or the state prepared for the scheduler loop together
with the required task set. -/
inductive RunEntry where
  | earlyReturn (v : Value)
  | enterLoop (target : String) (requiredTasks : List String)

/-- Model of the entry phase of Workflow.run (up to the start of the
scheduler loop): a target that is not a TaskOutput is returned unchanged at
once, with no state reset, no DAG build and nothing submitted; a handle
target resets the four per-run maps, builds the DAG from its fingerprint
and computes the required task set that the scheduler loop will drive. -/
def runEntryPhase (w : Workflow) (finalTarget : Value) : Workflow × RunEntry :=
  match finalTarget with
  | .vHandle _ fid =>
      let cleared : Workflow :=
        { w with task_results := [], task_status := [], task_dependencies := [], task_dependents := [] }
      let built := buildDag cleared.task_calls fid
      let w2 : Workflow :=
        { cleared with
          task_status := built.1.task_status,
          task_dependencies := built.1.task_dependencies,
          task_dependents := built.1.task_dependents }
      let required := (akeys w2.task_status).filter (fun tid => (alookup w2.task_calls tid).isSome)
      (w2, .enterLoop fid required)
  | v => (w, .earlyReturn v)

/-- The two per-run maps whose coupling claim C10 is about. -/
structure RunState where
  task_results : List (String × Value)
  task_status : List (String × TaskStatus)

/-- The ways the driver of Workflow.run mutates the result and status maps,
one constructor per mutation site in the source: the reset at the top of
run; the PENDING initialization in _build_dag (each id is initialized at
most once, hence the freshness guard); the RUNNING transition at
submission; the FAILED transition of the KeyError branch during argument
resolution; the paired result-recording and COMPLETED transition for a
successful future; the FAILED transition for a failed future; and the
PENDING to CANCELLED transition of the cancellation walk. -/
inductive SchedStep : RunState → RunState → Prop where
  | resetState (s : RunState) : SchedStep s ⟨[], []⟩
  | initStatus (s : RunState) (tid : String)
      (h : alookup s.task_status tid = none) :
      SchedStep s ⟨s.task_results, ainsert s.task_status tid .PENDING⟩
  | submit (s : RunState) (tid : String)
      (h : alookup s.task_status tid = some .PENDING) :
      SchedStep s ⟨s.task_results, ainsert s.task_status tid .RUNNING⟩
  | resolveFailed (s : RunState) (tid : String)
      (h : alookup s.task_status tid = some .PENDING) :
      SchedStep s ⟨s.task_results, ainsert s.task_status tid .FAILED⟩
  | completeOk (s : RunState) (tid : String) (v : Value)
      (h : alookup s.task_status tid = some .RUNNING) :
      SchedStep s ⟨ainsert s.task_results tid v, ainsert s.task_status tid .COMPLETED⟩
  | completeFail (s : RunState) (tid : String)
      (h : alookup s.task_status tid = some .RUNNING) :
      SchedStep s ⟨s.task_results, ainsert s.task_status tid .FAILED⟩
  | cancelOne (s : RunState) (tid : String)
      (h : alookup s.task_status tid = some .PENDING) :
      SchedStep s ⟨s.task_results, ainsert s.task_status tid .CANCELLED⟩

/-- The coupling invariant of claim C10: a fingerprint has a recorded result
exactly when its status is COMPLETED. -/
def StatusResultInv (s : RunState) : Prop :=
  ∀ tid, (alookup s.task_results tid).isSome ↔ alookup s.task_status tid = some .COMPLETED

/-! ### Association list lemmas -/

theorem alookup_ainsert {α : Type} (m : List (String × α)) (k : String) (v : α) (tid : String) :
    alookup (ainsert m k v) tid = if k = tid then some v else alookup m tid := by
  induction m with
  | nil => simp [ainsert, alookup]
  | cons kv rest ih =>
      obtain ⟨k2, v2⟩ := kv
      by_cases hk : k2 = k
      · subst hk
        simp only [ainsert, if_pos rfl]
        by_cases ht : k2 = tid <;> simp [alookup, ht]
      · simp only [ainsert, if_neg hk]
        by_cases ht : k2 = tid
        · subst ht
          have : ¬ (k = k2) := fun h => hk h.symm
          simp [alookup, this]
        · simp [alookup, ht, ih]

theorem alookup_ainsert_self {α : Type} (m : List (String × α)) (k : String) (v : α) :
    alookup (ainsert m k v) k = some v := by
  simp [alookup_ainsert]

theorem alookup_ainsert_ne {α : Type} (m : List (String × α)) (k : String) (v : α)
    (tid : String) (h : k ≠ tid) : alookup (ainsert m k v) tid = alookup m tid := by
  simp [alookup_ainsert, h]

/-! ### Insertion sort lemmas -/

theorem insertByLe_perm {α : Type} (le : α → α → Bool) (a : α) (l : List α) :
    (insertByLe le a l).Perm (a :: l) := by
  induction l with
  | nil => exact List.Perm.refl _
  | cons b l ih =>
      by_cases h : le a b
      · simp [insertByLe, h]
      · simp only [insertByLe, if_neg h]
        exact (ih.cons b).trans (List.Perm.swap a b l)

theorem sortByLe_perm {α : Type} (le : α → α → Bool) (l : List α) :
    (sortByLe le l).Perm l := by
  induction l with
  | nil => exact List.Perm.refl _
  | cons a l ih => exact (insertByLe_perm le a (sortByLe le l)).trans (ih.cons a)

theorem mem_insertByLe {α : Type} (le : α → α → Bool) (a : α) (l : List α) (x : α)
    (h : x ∈ insertByLe le a l) : x = a ∨ x ∈ l := by
  have := (insertByLe_perm le a l).mem_iff.mp h
  simpa using this

theorem insertByLe_sorted {α : Type} (le : α → α → Bool)
    (htot : ∀ a b, le a b = false → le b a = true)
    (htrans : ∀ a b c, le a b = true → le b c = true → le a c = true)
    (a : α) (l : List α) (h : l.Pairwise (fun x y => le x y = true)) :
    (insertByLe le a l).Pairwise (fun x y => le x y = true) := by
  induction l with
  | nil => simp [insertByLe]
  | cons b l ih =>
      rcases List.pairwise_cons.mp h with ⟨hb, hl⟩
      cases hab : le a b with
      | true =>
          simp only [insertByLe, hab, if_true]
          refine List.pairwise_cons.mpr ⟨?_, h⟩
          intro y hy
          rcases List.mem_cons.mp hy with hyb | hyl
          · rw [hyb]
            exact hab
          · exact htrans a b y hab (hb y hyl)
      | false =>
          simp only [insertByLe, hab, if_false]
          refine List.pairwise_cons.mpr ⟨?_, ih hl⟩
          intro y hy
          rcases mem_insertByLe le a l y hy with hya | hyl
          · rw [hya]
            exact htot a b hab
          · exact hb y hyl

theorem sortByLe_sorted {α : Type} (le : α → α → Bool)
    (htot : ∀ a b, le a b = false → le b a = true)
    (htrans : ∀ a b c, le a b = true → le b c = true → le a c = true)
    (l : List α) : (sortByLe le l).Pairwise (fun x y => le x y = true) := by
  induction l with
  | nil => simp [sortByLe]
  | cons a l ih => exact insertByLe_sorted le htot htrans a (sortByLe le l) ih

/-- A strict key order on kwargs items; it is vacuously antisymmetric, which
lets two sorted permutations with distinct keys be identified. -/
def ltKey (p q : String × Value) : Prop := p.1 < q.1

instance : IsAntisymm (String × Value) ltKey :=
  ⟨fun _ _ h h2 => absurd h2 (not_lt.mpr (le_of_lt h))⟩

theorem sorted_ltKey_of_sorted_nodup (l : List (String × Value))
    (hs : l.Pairwise (fun x y => kvLe x y = true))
    (hnd : (l.map Prod.fst).Nodup) : l.Pairwise ltKey := by
  have hne : l.Pairwise (fun p q : String × Value => p.1 ≠ q.1) :=
    List.pairwise_map.mp hnd
  have := hs.and hne
  exact this.imp (fun h => lt_of_le_of_ne (of_decide_eq_true h.1) h.2)

theorem sortKV_eq_of_perm (l₁ l₂ : List (String × Value)) (hp : l₁.Perm l₂)
    (hnd : (l₁.map Prod.fst).Nodup) : sortByLe kvLe l₁ = sortByLe kvLe l₂ := by
  have htot : ∀ a b : String × Value, kvLe a b = false → kvLe b a = true := by
    intro a b h
    rcases le_total a.1 b.1 with h2 | h2
    · exact absurd h2 (of_decide_eq_false h)
    · exact decide_eq_true h2
  have htrans : ∀ a b c : String × Value, kvLe a b = true → kvLe b c = true → kvLe a c = true := by
    intro a b c h1 h2
    exact decide_eq_true (le_trans (of_decide_eq_true h1) (of_decide_eq_true h2))
  have hp1 : (sortByLe kvLe l₁).Perm l₁ := sortByLe_perm kvLe l₁
  have hp2 : (sortByLe kvLe l₂).Perm l₂ := sortByLe_perm kvLe l₂
  have hperm : (sortByLe kvLe l₁).Perm (sortByLe kvLe l₂) :=
    (hp1.trans hp).trans hp2.symm
  have hnd1 : ((sortByLe kvLe l₁).map Prod.fst).Nodup :=
    ((hp1.map Prod.fst).nodup_iff).mpr hnd
  have hnd2 : ((sortByLe kvLe l₂).map Prod.fst).Nodup :=
    ((hperm.map Prod.fst).nodup_iff).mp hnd1
  have hs1 : (sortByLe kvLe l₁).Pairwise ltKey :=
    sorted_ltKey_of_sorted_nodup _ (sortByLe_sorted kvLe htot htrans l₁) hnd1
  have hs2 : (sortByLe kvLe l₂).Pairwise ltKey :=
    sorted_ltKey_of_sorted_nodup _ (sortByLe_sorted kvLe htot htrans l₂) hnd2
  exact List.eq_of_perm_of_sorted hperm hs1 hs2

/-! ### Claim theorems -/

/-- C2: for any function f and argument set A, two independent constructions
of a handle for (f, A) produce identical fingerprints, and permuting the
insertion order of the keyword arguments does not change the fingerprint.
The fingerprint is a pure function of the name, the positional arguments and
the kwargs items sorted by key, so any two constructions from permuted
keyword-argument insertions (the keys of a Python dict are distinct) agree. -/
theorem fingerprint_kwarg_order_invariant (fn : String) (args : List Value)
    (k₁ k₂ : List (String × Value)) (hperm : k₁.Perm k₂)
    (hnd : (k₁.map Prod.fst).Nodup) :
    (mkTaskOutput fn args k₁).id = (mkTaskOutput fn args k₂).id := by
  simp only [mkTaskOutput]
  rw [sortKV_eq_of_perm k₁ k₂ hperm hnd]

/-- Witness for C2 at a concrete input: the same two keyword arguments
inserted in the two possible orders give the same fingerprint. -/
theorem fingerprint_kwarg_order_invariant_witness :
    (mkTaskOutput "f" [Value.vInt 3] [("b", Value.vInt 1), ("a", Value.vInt 2)]).id =
      (mkTaskOutput "f" [Value.vInt 3] [("a", Value.vInt 2), ("b", Value.vInt 1)]).id :=
  fingerprint_kwarg_order_invariant "f" [Value.vInt 3] _ _
    (List.Perm.swap ("a", Value.vInt 2) ("b", Value.vInt 1) []) (by decide)

/-- C7: run_shell returns the captured standard output when the command
exits with status zero, and fails with the CalledProcessError (the
ShellFailure of the spec) carrying the non-zero return code, the captured
stdout and the captured stderr when the command exits non-zero. -/
theorem run_shell_outcome (command : String) (cwd logf : Option String)
    (osExec : String → Option String → ShellResult) :
    ((osExec command cwd).returncode = 0 →
        run_shell command cwd logf osExec = .ok (osExec command cwd).stdout) ∧
    ((osExec command cwd).returncode ≠ 0 →
        run_shell command cwd logf osExec =
          .error ⟨(osExec command cwd).returncode, (osExec command cwd).stdout,
                  (osExec command cwd).stderr⟩) := by
  constructor
  · intro h
    simp [run_shell, h]
  · intro h
    simp [run_shell, h]

/-- Witness for C7: a zero-exit command returns its stdout and a two-exit
command fails with code, stdout and stderr. -/
theorem run_shell_outcome_witness :
    run_shell "cmd" none none (fun _ _ => ⟨0, "out", "err"⟩) = .ok "out" ∧
    run_shell "cmd" none none (fun _ _ => ⟨2, "o", "e"⟩) = .error ⟨2, "o", "e"⟩ :=
  ⟨(run_shell_outcome "cmd" none none (fun _ _ => ⟨0, "out", "err"⟩)).1 rfl,
   (run_shell_outcome "cmd" none none (fun _ _ => ⟨2, "o", "e"⟩)).2 (by decide)⟩

/-- C9: for every value that is not a task handle, run returns it unchanged
without resetting per-run state, building a DAG, or submitting any task:
the entry phase hands back the original workflow state untouched together
with the early-return marker, and the scheduler loop is never entered. -/
theorem run_nonhandle_early_return (w : Workflow) (v : Value)
    (h : ∀ fn fid, v ≠ .vHandle fn fid) :
    runEntryPhase w v = (w, .earlyReturn v) := by
  cases v with
  | vHandle fn fid => exact absurd rfl (h fn fid)
  | vNone => rfl
  | vBool b => rfl
  | vInt n => rfl
  | vStr s => rfl
  | vList xs => rfl
  | vTuple xs => rfl
  | vDict kvs => rfl

/-- Witness for C9: a plain integer target is returned unchanged on the
empty workflow state. -/
theorem run_nonhandle_early_return_witness :
    runEntryPhase ⟨[], [], [], [], []⟩ (.vInt 3) =
      (⟨[], [], [], [], []⟩, .earlyReturn (.vInt 3)) :=
  run_nonhandle_early_return ⟨[], [], [], [], []⟩ (.vInt 3)
    (fun _ _ h => Value.noConfusion h)

/-- A value is the handle with fingerprint d. -/
def IsHandleId (v : Value) (d : String) : Prop := ∃ fn, v = Value.vHandle fn d

/-- A value is a one-level list or tuple with a handle of fingerprint d
among its elements. -/
def SeqContainsHandle (v : Value) (d : String) : Prop :=
  ∃ xs, (v = Value.vList xs ∨ v = Value.vTuple xs) ∧ ∃ x ∈ xs, IsHandleId x d

/-- The dependency relation in the words of claim C4: a handle with
fingerprint d appears as a positional argument, as a keyword-argument
value, or as an element of a one-level list or tuple within either. This
definition follows the claim text and is compared against the source
definition getDependencies. -/
def SpecDependsOn (t : TaskOutput) (d : String) : Prop :=
  (∃ a ∈ t.call_args, IsHandleId a d ∨ SeqContainsHandle a d) ∨
  (∃ kv ∈ t.call_kwargs, IsHandleId kv.2 d ∨ SeqContainsHandle kv.2 d)

theorem mem_addDep (x d : String) (acc : List String) :
    x ∈ addDep d acc ↔ x = d ∨ x ∈ acc := by
  by_cases h : d ∈ acc
  · simp only [addDep, if_pos h]
    constructor
    · exact Or.inr
    · rintro (rfl | hx)
      · exact h
      · exact hx
  · simp only [addDep, if_neg h, List.mem_append, List.mem_singleton]
    exact or_comm

theorem depsOfSeq_cons_handle (acc : List String) (fn fid : String) (rest : List Value) :
    depsOfSeq acc (Value.vHandle fn fid :: rest) = depsOfSeq (addDep fid acc) rest := rfl

theorem depsOfSeq_cons_other (acc : List String) (v : Value) (rest : List Value)
    (h : ∀ fn fid, v ≠ Value.vHandle fn fid) :
    depsOfSeq acc (v :: rest) = depsOfSeq acc rest := by
  cases v with
  | vHandle fn fid => exact absurd rfl (h fn fid)
  | vNone => rfl
  | vBool b => rfl
  | vInt n => rfl
  | vStr s => rfl
  | vList ys => rfl
  | vTuple ys => rfl
  | vDict kvs => rfl

theorem mem_depsOfSeq (x : String) (xs : List Value) (acc : List String) :
    x ∈ depsOfSeq acc xs ↔ x ∈ acc ∨ ∃ v ∈ xs, IsHandleId v x := by
  induction xs generalizing acc with
  | nil => simp [depsOfSeq]
  | cons v rest ih =>
      by_cases hv : ∃ fn fid, v = Value.vHandle fn fid
      · obtain ⟨fn, fid, rfl⟩ := hv
        rw [depsOfSeq_cons_handle, ih, mem_addDep]
        constructor
        · rintro ((rfl | hx) | ⟨w, hw, hwh⟩)
          · exact Or.inr ⟨_, List.mem_cons_self _ _, fn, rfl⟩
          · exact Or.inl hx
          · exact Or.inr ⟨w, List.mem_cons_of_mem _ hw, hwh⟩
        · rintro (hx | ⟨w, hw, hwh⟩)
          · exact Or.inl (Or.inr hx)
          · rcases List.mem_cons.mp hw with rfl | hw2
            · rcases hwh with ⟨fn2, he⟩
              cases he
              exact Or.inl (Or.inl rfl)
            · exact Or.inr ⟨w, hw2, hwh⟩
      · have hne : ∀ fn fid, v ≠ Value.vHandle fn fid := fun fn fid h2 => hv ⟨fn, fid, h2⟩
        have hh : ∀ d, ¬ IsHandleId v d := fun d hd => by
          rcases hd with ⟨fn, he⟩
          exact hne fn d he
        rw [depsOfSeq_cons_other acc v rest hne, ih]
        constructor
        · rintro (hx | ⟨w, hw, hwh⟩)
          · exact Or.inl hx
          · exact Or.inr ⟨w, List.mem_cons_of_mem _ hw, hwh⟩
        · rintro (hx | ⟨w, hw, hwh⟩)
          · exact Or.inl hx
          · rcases List.mem_cons.mp hw with rfl | hw2
            · exact absurd hwh (hh x)
            · exact Or.inr ⟨w, hw2, hwh⟩

theorem depsOfValue_handle (acc : List String) (fn fid : String) :
    depsOfValue acc (Value.vHandle fn fid) = addDep fid acc := rfl

theorem depsOfValue_list (acc : List String) (ys : List Value) :
    depsOfValue acc (Value.vList ys) = depsOfSeq acc ys := rfl

theorem depsOfValue_tuple (acc : List String) (ys : List Value) :
    depsOfValue acc (Value.vTuple ys) = depsOfSeq acc ys := rfl

theorem mem_depsOfValue (x : String) (v : Value) (acc : List String) :
    x ∈ depsOfValue acc v ↔ x ∈ acc ∨ IsHandleId v x ∨ SeqContainsHandle v x := by
  cases v with
  | vHandle fn fid =>
      rw [depsOfValue_handle, mem_addDep]
      simp only [IsHandleId, SeqContainsHandle, Value.vHandle.injEq]
      constructor
      · rintro (rfl | hx)
        · exact Or.inr (Or.inl ⟨fn, rfl, rfl⟩)
        · exact Or.inl hx
      · rintro (hx | ⟨fn2, _, rfl⟩ | ⟨xs, hxs | hxs, _⟩)
        · exact Or.inr hx
        · exact Or.inl rfl
        · exact absurd hxs (by simp)
        · exact absurd hxs (by simp)
  | vList ys =>
      rw [depsOfValue_list, mem_depsOfSeq]
      simp [IsHandleId, SeqContainsHandle]
  | vTuple ys =>
      rw [depsOfValue_tuple, mem_depsOfSeq]
      simp [IsHandleId, SeqContainsHandle]
  | vNone => simp [depsOfValue, IsHandleId, SeqContainsHandle]
  | vBool b => simp [depsOfValue, IsHandleId, SeqContainsHandle]
  | vInt n => simp [depsOfValue, IsHandleId, SeqContainsHandle]
  | vStr s => simp [depsOfValue, IsHandleId, SeqContainsHandle]
  | vDict kvs => simp [depsOfValue, IsHandleId, SeqContainsHandle]

theorem mem_foldl_depsOfValue (x : String) (l : List Value) (acc : List String) :
    x ∈ l.foldl depsOfValue acc ↔
      x ∈ acc ∨ ∃ v ∈ l, (IsHandleId v x ∨ SeqContainsHandle v x) := by
  induction l generalizing acc with
  | nil => simp
  | cons v rest ih =>
      rw [List.foldl_cons, ih]
      simp only [mem_depsOfValue, List.mem_cons]
      constructor
      · rintro ((hx | hv) | ⟨w, hw, hwh⟩)
        · exact Or.inl hx
        · exact Or.inr ⟨v, Or.inl rfl, hv⟩
        · exact Or.inr ⟨w, Or.inr hw, hwh⟩
      · rintro (hx | ⟨w, rfl | hw, hwh⟩)
        · exact Or.inl (Or.inl hx)
        · exact Or.inl (Or.inr hwh)
        · exact Or.inr ⟨w, hw, hwh⟩

theorem mem_foldl_depsOfKV (x : String) (l : List (String × Value)) (acc : List String) :
    x ∈ l.foldl (fun acc kv => depsOfValue acc kv.2) acc ↔
      x ∈ acc ∨ ∃ kv ∈ l, (IsHandleId kv.2 x ∨ SeqContainsHandle kv.2 x) := by
  induction l generalizing acc with
  | nil => simp
  | cons kv rest ih =>
      rw [List.foldl_cons, ih]
      simp only [mem_depsOfValue, List.mem_cons]
      constructor
      · rintro ((hx | hv) | ⟨w, hw, hwh⟩)
        · exact Or.inl hx
        · exact Or.inr ⟨kv, Or.inl rfl, hv⟩
        · exact Or.inr ⟨w, Or.inr hw, hwh⟩
      · rintro (hx | ⟨w, rfl | hw, hwh⟩)
        · exact Or.inl (Or.inl hx)
        · exact Or.inl (Or.inr hwh)
        · exact Or.inr ⟨w, hw, hwh⟩

/-- C4: for every handle t, get_dependencies returns exactly the set of
fingerprints of handles appearing as a positional argument, as a
keyword-argument value, or as an element of a one-level list or tuple
within either; handles nested inside mappings or deeper structures do not
contribute (they satisfy neither disjunct of the specification predicate). -/
theorem get_dependencies_characterization (t : TaskOutput) (d : String) :
    d ∈ getDependencies t ↔ SpecDependsOn t d := by
  unfold getDependencies SpecDependsOn
  rw [mem_foldl_depsOfKV, mem_foldl_depsOfValue]
  simp

/-- Concrete task-call table for claim C5: one known task call, stored under
its fingerprint aid, whose single argument is a handle with fingerprint uid
that is not present in the table. -/
def c5calls : List (String × TaskOutput) :=
  [("aid", ⟨"A", [Value.vHandle "u" "uid"], [], "aid"⟩)]

/-- C5 fails on the code as stated: at this concrete input the dependency
fingerprint uid is recorded by get_dependencies and is absent from the
invocations table, and the traversal does skip it, but no warning is logged:
every print statement inside _build_dag, including the unknown-dependency
warning, is commented out in the source, so the warning trace of the build
is empty where the claim requires a logged warning. -/
theorem build_dag_unknown_dep_not_warned :
    "uid" ∈ getDependencies (⟨"A", [Value.vHandle "u" "uid"], [], "aid"⟩ : TaskOutput) ∧
    alookup c5calls "uid" = none ∧
    (buildDag c5calls "aid").1.warnings = [] := by
  refine ⟨?_, rfl, rfl⟩
  decide

theorem processDeps_invariants (calls : List (String × TaskOutput)) (cur : String)
    (visited : List String) :
    ∀ (deps : List String) (st : DagState) (queue processed : List String),
    (processDeps calls cur visited deps st queue processed).1.task_status = st.task_status ∧
    (processDeps calls cur visited deps st queue processed).1.warnings = st.warnings ∧
    (∀ tid ∈ (processDeps calls cur visited deps st queue processed).2.2,
        tid ∈ processed ∨ (alookup calls tid).isSome) := by
  intro deps
  induction deps with
  | nil =>
      intro st queue processed
      exact ⟨rfl, rfl, fun tid h => Or.inl h⟩
  | cons dep rest ih =>
      intro st queue processed
      simp only [processDeps]
      by_cases hc : dep ∉ visited ∧ dep ∉ processed ∧ (alookup calls dep).isSome
      · rw [if_pos hc]
        rcases ih _ (queue ++ [dep]) (processed ++ [dep]) with ⟨ha, hb, hp⟩
        refine ⟨ha, hb, fun tid h => ?_⟩
        rcases hp tid h with hin | hin
        · rcases List.mem_append.mp hin with hin2 | hin2
          · exact Or.inl hin2
          · rw [List.mem_singleton.mp hin2]
            exact Or.inr hc.2.2
        · exact Or.inr hin
      · rw [if_neg hc]
        exact ih _ queue processed

theorem buildDagAux_invariants (calls : List (String × TaskOutput)) :
    ∀ (fuel : Nat) (queue visited processed : List String) (st : DagState),
    (∀ tid, (alookup st.task_status tid).isSome → (alookup calls tid).isSome) →
    (∀ tid ∈ processed, (alookup calls tid).isSome) →
    ((∀ tid, (alookup (buildDagAux calls fuel queue visited processed st).1.task_status tid).isSome →
        (alookup calls tid).isSome) ∧
     (∀ tid ∈ (buildDagAux calls fuel queue visited processed st).2.2,
        (alookup calls tid).isSome) ∧
     (buildDagAux calls fuel queue visited processed st).1.warnings = st.warnings) := by
  intro fuel
  induction fuel with
  | zero =>
      intro queue visited processed st h1 h2
      exact ⟨h1, h2, rfl⟩
  | succ fuel ih =>
      intro queue visited processed st h1 h2
      cases queue with
      | nil => exact ⟨h1, h2, rfl⟩
      | cons cur queue =>
          simp only [buildDagAux]
          by_cases hc : cur ∈ visited
          · simp only [if_pos hc]
            exact ih queue visited processed st h1 h2
          · simp only [if_neg hc]
            cases halo : alookup calls cur with
            | none => exact ih queue (cur :: visited) processed st h1 h2
            | some t =>
                rcases processDeps_invariants calls cur (cur :: visited)
                    (getDependencies t)
                    { st with
                      task_dependencies := ainsert st.task_dependencies cur (getDependencies t),
                      task_status := ainsert st.task_status cur .PENDING }
                    queue processed with ⟨ha, hb, hp⟩
                have h1' : ∀ tid,
                    (alookup (processDeps calls cur (cur :: visited) (getDependencies t)
                      { st with
                        task_dependencies := ainsert st.task_dependencies cur (getDependencies t),
                        task_status := ainsert st.task_status cur .PENDING }
                      queue processed).1.task_status tid).isSome →
                    (alookup calls tid).isSome := by
                  intro tid h
                  rw [ha] at h
                  simp only [alookup_ainsert] at h
                  by_cases he : cur = tid
                  · rw [← he]
                    simp [halo]
                  · rw [if_neg he] at h
                    exact h1 tid h
                have h2' : ∀ tid ∈ (processDeps calls cur (cur :: visited) (getDependencies t)
                    { st with
                      task_dependencies := ainsert st.task_dependencies cur (getDependencies t),
                      task_status := ainsert st.task_status cur .PENDING }
                    queue processed).2.2, (alookup calls tid).isSome := by
                  intro tid h
                  rcases hp tid h with hin | hin
                  · exact h2 tid hin
                  · exact hin
                rcases ih _ (cur :: visited) _ _ h1' h2' with ⟨ga, gb, gc⟩
                exact ⟨ga, gb, by rw [gc, hb]⟩

/-- C5 amended: during DAG construction every dependency fingerprint not in
the invocations table is skipped silently rather than warned about: the
recorded statuses cover only fingerprints of known task calls, only known
fingerprints are ever added to the traversal frontier (the processed set of
the walk), and the warning trace is empty because every print in _build_dag
is commented out in the source. -/
theorem build_dag_skips_unknown_deps (calls : List (String × TaskOutput)) (target : String) :
    (∀ tid, (alookup (buildDag calls target).1.task_status tid).isSome →
        (alookup calls tid).isSome) ∧
    (∀ tid ∈ (buildDag calls target).2.2, (alookup calls tid).isSome) ∧
    (buildDag calls target).1.warnings = [] := by
  exact buildDagAux_invariants calls (calls.length + 1) [target] [] [] emptyDagState
    (by intro tid h; simp [emptyDagState, alookup] at h)
    (by intro tid h; simp at h)

/-- Witness for C5 amended at the concrete table c5calls: the known task aid
has a recorded status hence is a known call, and the build logs nothing. -/
theorem build_dag_skips_unknown_deps_witness :
    (alookup c5calls "aid").isSome = true ∧ (buildDag c5calls "aid").1.warnings = [] :=
  ⟨(build_dag_skips_unknown_deps c5calls "aid").1 "aid" (by decide),
   (build_dag_skips_unknown_deps c5calls "aid").2.2⟩

theorem summaryOf_covers_failed (calls : List (String × TaskOutput))
    (status : List (String × TaskStatus)) (failed : List String) (tid : String)
    (h : tid ∈ failed) : ∃ e ∈ summaryOf calls status failed, e.tid = tid := by
  have hmem : tid ∈ sortByLe strLe failed := (sortByLe_perm strLe failed).mem_iff.mpr h
  refine ⟨_, List.mem_map_of_mem _ hmem, ?_⟩
  cases halo : alookup calls tid <;> simp [halo]

/-- Concrete task-call table for claim C6: one known task call with
fingerprint s whose single argument is a handle with an unknown fingerprint,
the stuck-run scenario in which the scheduler loop exits through the
no-tasks-running break with s still PENDING. -/
def c6calls : List (String × TaskOutput) :=
  [("s", ⟨"S", [Value.vHandle "u" "uid"], [], "s"⟩)]

/-- C6 fails on the code as stated: at the stuck-exit break of the
scheduler loop (no task running, required tasks remaining) a required task
can be left PENDING without ever entering tasks_failed; the run still
raises because the target is not COMPLETED, but the raised summary, which
iterates only the tasks_failed set, omits the stuck PENDING task. Here the
known required task s is PENDING and tasks_failed is empty, so the summary
of the raised failure is empty although s is a non-completed task. -/
theorem finish_run_summary_misses_stuck_pending :
    finishRun c6calls [("s", TaskStatus.PENDING)] [] [] "s" = .error [] ∧
    alookup [("s", TaskStatus.PENDING)] "s" ≠ some TaskStatus.COMPLETED ∧
    (alookup c6calls "s").isSome = true := by
  refine ⟨rfl, by decide, rfl⟩

/-- C6 amended: when the scheduler loop exits, run raises the workflow
failure if and only if the status of the target task is not COMPLETED, and
otherwise returns the result recorded for the target. The raised summary
lists the sorted tasks_failed set, hence every failed or cancelled task;
a required task left PENDING by a stuck exit is not in tasks_failed and is
omitted from the summary. The hypothesis is the loop-exit invariant that a
task in tasks_failed never has status COMPLETED (failed and cancelled
tasks are excluded from the readiness scan and never resubmitted). -/
theorem finish_run_outcome (calls : List (String × TaskOutput))
    (status : List (String × TaskStatus)) (results : List (String × Value))
    (failed : List String) (target : String)
    (h1 : target ∈ failed → alookup status target ≠ some .COMPLETED) :
    (alookup status target = some .COMPLETED →
        finishRun calls status results failed target = .ok (alookup results target)) ∧
    (alookup status target ≠ some .COMPLETED →
        finishRun calls status results failed target = .error (summaryOf calls status failed) ∧
        (∀ tid ∈ failed, ∃ e ∈ summaryOf calls status failed, e.tid = tid)) := by
  constructor
  · intro hc
    have hnf : target ∉ failed := fun hf => h1 hf hc
    simp [finishRun, hc, hnf]
  · intro hc
    refine ⟨by simp [finishRun, hc], ?_⟩
    intro tid hf
    exact summaryOf_covers_failed calls status failed tid hf

/-- Witness for C6 amended at concrete states: a run whose target completed
with result 7 returns it, and a run whose target failed raises the summary,
which carries an entry for the failed task. -/
theorem finish_run_outcome_witness :
    finishRun [] [("t", TaskStatus.COMPLETED)] [("t", Value.vInt 7)] [] "t" =
      .ok (some (Value.vInt 7)) ∧
    finishRun [] [("b", TaskStatus.FAILED)] [] ["b"] "b" =
      .error (summaryOf [] [("b", TaskStatus.FAILED)] ["b"]) ∧
    (∃ e ∈ summaryOf [] [("b", TaskStatus.FAILED)] ["b"], e.tid = "b") := by
  refine ⟨?_, ?_, ?_⟩
  · exact (finish_run_outcome [] [("t", TaskStatus.COMPLETED)] [("t", Value.vInt 7)]
      [] "t" (by intro h; simp at h)).1 rfl
  · exact ((finish_run_outcome [] [("b", TaskStatus.FAILED)] [] ["b"] "b"
      (fun _ => by decide)).2 (by decide)).1
  · exact ((finish_run_outcome [] [("b", TaskStatus.FAILED)] [] ["b"] "b"
      (fun _ => by decide)).2 (by decide)).2 "b" (List.mem_singleton.mpr rfl)

/-- Concrete filesystem for claim C8: the path /a/bc exists and there are no
symbolic links. -/
def c8fs : FileSystem := ⟨["/a/bc"], []⟩

/-- C8 fails on the code as stated: with destination directory /a/b and the
existing source /a/bc, the source is not inside the destination directory
(it does not extend the directory path followed by a slash), yet the link
is refused because the guard of _create_input_symlink is a plain
string-prefix test; the filesystem comes back unchanged and no symlink
exists, although the source existed, so the link-exists-iff-source-existed
part of the claim fails here, and the refusal fires for a source outside
the destination directory, so the refused-only-when-inside part fails too. -/
theorem link_refused_for_non_contained_source :
    create_input_symlink c8fs "/" (Value.vStr "/a/bc") "/a/b" "in" = c8fs ∧
    "/a/bc" ∈ c8fs.existingPaths ∧
    strStartsWith "/a/bc" ("/a/b" ++ "/") = false ∧
    c8fs.symlinkTargets = [] := by
  exact ⟨by decide, by decide, by decide, rfl⟩

/-- C8 amended: for a textual source path, a symlink in the destination
directory resolving to the absolute source exists after the call if and
only if the source named an existing entry and the refusal guard did not
fire; when the source did not exist, or the guard fired, nothing was
created and the filesystem is unchanged. The guard holds exactly when the
absolute source starts with the absolute destination directory as a string
and differs from it, which includes every path inside the destination
directory but also sibling paths that merely extend the directory name.
Both paths are taken absolute here so that abspath is the identity. -/
theorem create_input_symlink_characterization (fs : FileSystem) (cwd sp d pfx : String)
    (hsp : isAbsPath sp = true) (hd : isAbsPath d = true) :
    (sp ∉ fs.existingPaths → create_input_symlink fs cwd (Value.vStr sp) d pfx = fs) ∧
    (sp ∈ fs.existingPaths → strStartsWith sp d = true → sp ≠ d →
        create_input_symlink fs cwd (Value.vStr sp) d pfx = fs) ∧
    (sp ∈ fs.existingPaths → ¬ (strStartsWith sp d = true ∧ sp ≠ d) →
        alookup (create_input_symlink fs cwd (Value.vStr sp) d pfx).symlinkTargets
            (linkNameFor d pfx sp) = some sp ∧
        linkNameFor d pfx sp ∈
          (create_input_symlink fs cwd (Value.vStr sp) d pfx).existingPaths) := by
  have e1 : absPath cwd sp = sp := by simp [absPath, hsp]
  have e2 : absPath cwd d = d := by simp [absPath, hd]
  refine ⟨?_, ?_, ?_⟩
  · intro h
    simp [create_input_symlink, h]
  · intro h hs hne
    simp [create_input_symlink, h, e1, e2, hs, hne]
  · intro h hg
    simp only [create_input_symlink, e1, e2, if_pos h, if_neg hg]
    constructor
    · simp [alookup]
    · exact List.mem_cons_self _ _

/-- Witness for C8 amended: linking an existing absolute file into a
separate destination directory records a symlink resolving to the source. -/
theorem create_input_symlink_characterization_witness :
    alookup (create_input_symlink ⟨["/x/f.txt"], []⟩ "/" (Value.vStr "/x/f.txt")
        "/out" "in").symlinkTargets (linkNameFor "/out" "in" "/x/f.txt") =
      some "/x/f.txt" :=
  ((create_input_symlink_characterization ⟨["/x/f.txt"], []⟩ "/" "/x/f.txt" "/out" "in"
      rfl rfl).2.2 (by decide) (by decide)).1

/-- C1 fails on the code: at submission time only top-level handle arguments
are substituted by their recorded results; a handle appearing as an element
of a one-level list (or tuple) is passed to the worker unresolved, even
though get_dependencies records it as a dependency and the scheduler waits
for it. Here the dependency h1 has recorded result 7, yet the resolved
positional argument list still contains the raw handle rather than [7]. -/
theorem resolution_skips_sequence_nested_handles :
    resolveArgs [("h1", .vInt 7)] [.vList [.vHandle "produce" "h1"]] =
      some [.vList [.vHandle "produce" "h1"]] ∧
    resolveArgs [("h1", .vInt 7)] [.vList [.vHandle "produce" "h1"]] ≠
      some [.vList [.vInt 7]] := by
  constructor
  · rfl
  · intro h
    simp [resolveArgs, resolveOne] at h

/-! ### Cancellation walk: termination measure and specification -/

/-- Potential of the unvisited part of the dependents graph: each unvisited
id contributes one pop plus the length of its dependent list. -/
def cancelPotential (dependents : List (String × List String)) (visited : List String) : Nat :=
  ((allGraphIds dependents).map
    (fun x => if x ∈ visited then 0 else 1 + ((alookup dependents x).getD []).length)).sum

theorem sum_if_mono (f : String → Nat) (visited : List String) (d : String) :
    ∀ L : List String,
    ((L.map (fun x => if x ∈ d :: visited then 0 else f x)).sum ≤
      (L.map (fun x => if x ∈ visited then 0 else f x)).sum) := by
  intro L
  induction L with
  | nil => simp
  | cons y rest ih =>
      simp only [List.map_cons, List.sum_cons]
      have hy : (if y ∈ d :: visited then 0 else f y) ≤ (if y ∈ visited then 0 else f y) := by
        by_cases h : y ∈ visited
        · have h2 : y ∈ d :: visited := List.mem_cons_of_mem _ h
          simp [h, h2]
        · rw [if_neg h]
          split
          · exact Nat.zero_le _
          · exact le_refl _
      omega

theorem sum_if_drop (f : String → Nat) (visited : List String) (d : String)
    (hdv : d ∉ visited) :
    ∀ L : List String, d ∈ L →
    ((L.map (fun x => if x ∈ d :: visited then 0 else f x)).sum + f d ≤
      (L.map (fun x => if x ∈ visited then 0 else f x)).sum) := by
  intro L
  induction L with
  | nil =>
      intro h
      cases h
  | cons y rest ih =>
      intro h
      simp only [List.map_cons, List.sum_cons]
      by_cases hyd : y = d
      · subst hyd
        rw [if_pos (List.mem_cons_self _ _), if_neg hdv]
        have := sum_if_mono f visited y rest
        omega
      · have hdmem : d ∈ rest := by
          rcases List.mem_cons.mp h with he | hm
          · exact absurd he.symm hyd
          · exact hm
        have hy : (if y ∈ d :: visited then 0 else f y) = (if y ∈ visited then 0 else f y) := by
          by_cases h2 : y ∈ visited
          · have h3 : y ∈ d :: visited := List.mem_cons_of_mem _ h2
            simp [h2, h3]
          · have h3 : y ∉ d :: visited := by
              intro h4
              rcases List.mem_cons.mp h4 with he | hm
              · exact hyd he
              · exact h2 hm
            simp [h2, h3]
        have := ih hdmem
        omega

theorem cancelPotential_mono (dependents : List (String × List String)) (d : String)
    (visited : List String) :
    cancelPotential dependents (d :: visited) ≤ cancelPotential dependents visited :=
  sum_if_mono _ visited d (allGraphIds dependents)

theorem cancelPotential_drop (dependents : List (String × List String)) (d : String)
    (visited : List String) (hdU : d ∈ allGraphIds dependents) (hdv : d ∉ visited) :
    cancelPotential dependents (d :: visited) +
      (1 + ((alookup dependents d).getD []).length) ≤
      cancelPotential dependents visited :=
  sum_if_drop _ visited d hdv (allGraphIds dependents) hdU

theorem cancelPotential_le (dependents : List (String × List String)) (visited : List String) :
    cancelPotential dependents visited ≤
      ((allGraphIds dependents).map
        (fun x => 1 + ((alookup dependents x).getD []).length)).sum := by
  unfold cancelPotential
  apply List.sum_le_sum
  intro x _
  split
  · exact Nat.zero_le _
  · exact le_refl _

theorem mem_allGraphIds (dependents : List (String × List String)) (x y : String)
    (h : y ∈ (alookup dependents x).getD []) : y ∈ allGraphIds dependents := by
  induction dependents with
  | nil => simp [alookup] at h
  | cons kv rest ih =>
      obtain ⟨k2, v⟩ := kv
      show y ∈ k2 :: (v ++ allGraphIds rest)
      by_cases he : k2 = x
      · rw [show alookup ((k2, v) :: rest) x = some v by simp [alookup, he]] at h
        exact List.mem_cons_of_mem _ (List.mem_append_left _ h)
      · rw [show alookup ((k2, v) :: rest) x = alookup rest x by simp [alookup, he]] at h
        exact List.mem_cons_of_mem _ (List.mem_append_right _ (ih h))

/-- Full specification of the cancellation walk, proved by induction on the
fuel. With enough fuel (the queue plus the potential of the unvisited part
of the graph) the walk empties its queue, and then: everything queued or
visited ends up visited; every id that gets visited while unvisited, known
and PENDING comes out CANCELLED, in tasks_failed, and with all its
dependents visited; statuses of visited or non-PENDING ids never change;
and tasks_failed only grows. -/
theorem propagateCancel_spec (dependents : List (String × List String)) (knownIds : List String) :
    ∀ (fuel : Nat) (queue visited : List String) (st : CancelState),
    (∀ x ∈ queue, x ∈ allGraphIds dependents) →
    (queue.length + cancelPotential dependents visited < fuel) →
    ((∀ x ∈ queue, x ∈ (propagateCancel dependents knownIds fuel queue visited st).2) ∧
     (∀ x ∈ visited, x ∈ (propagateCancel dependents knownIds fuel queue visited st).2) ∧
     (∀ x, x ∈ (propagateCancel dependents knownIds fuel queue visited st).2 → x ∉ visited →
        x ∈ knownIds → alookup st.task_status x = some .PENDING →
        alookup (propagateCancel dependents knownIds fuel queue visited st).1.task_status x =
            some .CANCELLED ∧
        x ∈ (propagateCancel dependents knownIds fuel queue visited st).1.tasks_failed ∧
        (∀ y ∈ (alookup dependents x).getD [],
            y ∈ (propagateCancel dependents knownIds fuel queue visited st).2)) ∧
     (∀ x, (x ∈ visited ∨ alookup st.task_status x ≠ some .PENDING) →
        alookup (propagateCancel dependents knownIds fuel queue visited st).1.task_status x =
            alookup st.task_status x) ∧
     (∀ x ∈ st.tasks_failed,
        x ∈ (propagateCancel dependents knownIds fuel queue visited st).1.tasks_failed)) := by
  intro fuel
  induction fuel with
  | zero =>
      intro queue visited st hq hf
      exact absurd hf (Nat.not_lt_zero _)
  | succ fuel ih =>
      intro queue visited st hq hf
      cases queue with
      | nil =>
          refine ⟨by simp, fun x hx => hx, ?_, fun x _ => rfl, fun x hx => hx⟩
          intro x hx hnv _ _
          exact absurd hx hnv
      | cons d queue =>
          by_cases hdv : d ∈ visited
          · have hstep : propagateCancel dependents knownIds (fuel + 1) (d :: queue) visited st =
                propagateCancel dependents knownIds fuel queue visited st := by
              simp [propagateCancel, hdv]
            have hf2 : queue.length + cancelPotential dependents visited < fuel := by
              simp only [List.length_cons] at hf
              omega
            rcases ih queue visited st (fun x hx => hq x (List.mem_cons_of_mem _ hx)) hf2 with
              ⟨a1, a2, b, c, dmono⟩
            rw [hstep]
            refine ⟨?_, a2, b, c, dmono⟩
            intro x hx
            rcases List.mem_cons.mp hx with he | hx2
            · rw [he]
              exact a2 d hdv
            · exact a1 x hx2
          · have hdU : d ∈ allGraphIds dependents := hq d (List.mem_cons_self _ _)
            by_cases hdk : d ∈ knownIds
            · by_cases hdp : alookup st.task_status d = some .PENDING
              · -- cancel branch
                have hstep : propagateCancel dependents knownIds (fuel + 1) (d :: queue) visited st =
                    propagateCancel dependents knownIds fuel
                      (queue ++ ((alookup dependents d).getD []).filter
                        (fun y => y ∉ (d :: visited)))
                      (d :: visited)
                      ⟨ainsert st.task_status d .CANCELLED, d :: st.tasks_failed⟩ := by
                  simp [propagateCancel, hdv, hdk, hdp]
                have hq2 : ∀ x ∈ queue ++ ((alookup dependents d).getD []).filter
                    (fun y => y ∉ (d :: visited)), x ∈ allGraphIds dependents := by
                  intro x hx
                  rcases List.mem_append.mp hx with hx2 | hx2
                  · exact hq x (List.mem_cons_of_mem _ hx2)
                  · exact mem_allGraphIds dependents d x (List.mem_of_mem_filter hx2)
                have hf2 : (queue ++ ((alookup dependents d).getD []).filter
                    (fun y => y ∉ (d :: visited))).length +
                    cancelPotential dependents (d :: visited) < fuel := by
                  have hlen : (((alookup dependents d).getD []).filter
                      (fun y => y ∉ (d :: visited))).length ≤
                      ((alookup dependents d).getD []).length :=
                    List.length_filter_le _ _
                  have hdrop := cancelPotential_drop dependents d visited hdU hdv
                  simp only [List.length_append, List.length_cons] at hf ⊢
                  omega
                rcases ih _ (d :: visited)
                    ⟨ainsert st.task_status d .CANCELLED, d :: st.tasks_failed⟩ hq2 hf2 with
                  ⟨a1, a2, b, c, dmono⟩
                rw [hstep]
                refine ⟨?_, ?_, ?_, ?_, ?_⟩
                · intro x hx
                  rcases List.mem_cons.mp hx with he | hx2
                  · rw [he]
                    exact a2 d (List.mem_cons_self _ _)
                  · exact a1 x (List.mem_append_left _ hx2)
                · intro x hx
                  exact a2 x (List.mem_cons_of_mem _ hx)
                · intro x hxV hxnv hxk hxp
                  by_cases hxd : x = d
                  · subst hxd
                    refine ⟨?_, ?_, ?_⟩
                    · rw [c x (Or.inl (List.mem_cons_self _ _))]
                      exact alookup_ainsert_self _ _ _
                    · exact dmono x (List.mem_cons_self _ _)
                    · intro y hy
                      by_cases hyv : y ∈ x :: visited
                      · exact a2 y hyv
                      · refine a1 y (List.mem_append_right _ ?_)
                        exact List.mem_filter.mpr ⟨hy, by simpa using hyv⟩
                  · have hxnv2 : x ∉ d :: visited := by
                      intro h2
                      rcases List.mem_cons.mp h2 with he | hm
                      · exact hxd he
                      · exact hxnv hm
                    have hxp2 : alookup (ainsert st.task_status d TaskStatus.CANCELLED) x =
                        some .PENDING := by
                      rw [alookup_ainsert_ne _ _ _ _ (fun he => hxd he.symm)]
                      exact hxp
                    exact b x hxV hxnv2 hxk hxp2
                · intro x hx
                  have hxd : x ≠ d := by
                    intro he
                    rcases hx with hv | hp
                    · rw [he] at hv
                      exact hdv hv
                    · rw [he] at hp
                      exact hp hdp
                  have hst2 : alookup (ainsert st.task_status d TaskStatus.CANCELLED) x =
                      alookup st.task_status x :=
                    alookup_ainsert_ne _ _ _ _ (fun he => hxd he.symm)
                  have hx2 : x ∈ d :: visited ∨
                      alookup (ainsert st.task_status d TaskStatus.CANCELLED) x ≠
                        some TaskStatus.PENDING := by
                    rcases hx with hv | hp
                    · exact Or.inl (List.mem_cons_of_mem _ hv)
                    · rw [hst2]
                      exact Or.inr hp
                  rw [c x hx2, hst2]
                · intro x hx
                  exact dmono x (List.mem_cons_of_mem _ hx)
              · -- known but not PENDING: visit and move on
                have hstep : propagateCancel dependents knownIds (fuel + 1) (d :: queue) visited st =
                    propagateCancel dependents knownIds fuel queue (d :: visited) st := by
                  simp [propagateCancel, hdv, hdk, hdp]
                have hf2 : queue.length + cancelPotential dependents (d :: visited) < fuel := by
                  have := cancelPotential_mono dependents d visited
                  simp only [List.length_cons] at hf
                  omega
                rcases ih queue (d :: visited) st
                    (fun x hx => hq x (List.mem_cons_of_mem _ hx)) hf2 with
                  ⟨a1, a2, b, c, dmono⟩
                rw [hstep]
                refine ⟨?_, ?_, ?_, ?_, dmono⟩
                · intro x hx
                  rcases List.mem_cons.mp hx with he | hx2
                  · rw [he]
                    exact a2 d (List.mem_cons_self _ _)
                  · exact a1 x hx2
                · intro x hx
                  exact a2 x (List.mem_cons_of_mem _ hx)
                · intro x hxV hxnv hxk hxp
                  have hxd : x ≠ d := by
                    intro he
                    rw [he] at hxp
                    exact hdp hxp
                  have hxnv2 : x ∉ d :: visited := by
                    intro h2
                    rcases List.mem_cons.mp h2 with he | hm
                    · exact hxd he
                    · exact hxnv hm
                  exact b x hxV hxnv2 hxk hxp
                · intro x hx
                  refine c x ?_
                  rcases hx with hv | hp
                  · exact Or.inl (List.mem_cons_of_mem _ hv)
                  · exact Or.inr hp
            · -- unknown id: visit and move on
              have hstep : propagateCancel dependents knownIds (fuel + 1) (d :: queue) visited st =
                  propagateCancel dependents knownIds fuel queue (d :: visited) st := by
                simp [propagateCancel, hdv, hdk]
              have hf2 : queue.length + cancelPotential dependents (d :: visited) < fuel := by
                have := cancelPotential_mono dependents d visited
                simp only [List.length_cons] at hf
                omega
              rcases ih queue (d :: visited) st
                  (fun x hx => hq x (List.mem_cons_of_mem _ hx)) hf2 with
                ⟨a1, a2, b, c, dmono⟩
              rw [hstep]
              refine ⟨?_, ?_, ?_, ?_, dmono⟩
              · intro x hx
                rcases List.mem_cons.mp hx with he | hx2
                · rw [he]
                  exact a2 d (List.mem_cons_self _ _)
                · exact a1 x hx2
              · intro x hx
                exact a2 x (List.mem_cons_of_mem _ hx)
              · intro x hxV hxnv hxk hxp
                have hxd : x ≠ d := by
                  intro he
                  rw [he] at hxk
                  exact hdk hxk
                have hxnv2 : x ∉ d :: visited := by
                  intro h2
                  rcases List.mem_cons.mp h2 with he | hm
                  · exact hxd he
                  · exact hxnv hm
                exact b x hxV hxnv2 hxk hxp
              · intro x hx
                refine c x ?_
                rcases hx with hv | hp
                · exact Or.inl (List.mem_cons_of_mem _ hv)
                · exact Or.inr hp

/-- One recorded dependents edge: y is a direct dependent of x. -/
def DepEdge (dependents : List (String × List String)) (x y : String) : Prop :=
  y ∈ (alookup dependents x).getD []

/-- y transitively depends on x through one or more dependents edges. -/
def Descendant (dependents : List (String × List String)) (x y : String) : Prop :=
  ∃ z, DepEdge dependents x z ∧ Relation.ReflTransGen (DepEdge dependents) z y

/-- C3: after a task t fails, the cancellation walk transitions every
transitively dependent task that is still PENDING to CANCELLED and adds it
to tasks_failed (the set counted toward run termination), and it never
changes the status of a RUNNING task. The hypotheses describe the states
the walk runs on in the source: the failed task itself is not PENDING (it
just transitioned to FAILED); every transitive dependent of t is PENDING or
already CANCELLED (a dependent can never be RUNNING, COMPLETED or FAILED,
because its dependency t has no recorded result); every PENDING dependent
is a known task call (statuses are only ever recorded for known calls); and
dependents of already-CANCELLED tasks are not PENDING (an earlier walk
cancelled them together). -/
theorem cancellation_completeness (dependents : List (String × List String))
    (knownIds : List String) (t : String) (st : CancelState)
    (hT : alookup st.task_status t ≠ some .PENDING)
    (hDesc : ∀ y, Descendant dependents t y →
        alookup st.task_status y = some .PENDING ∨
          alookup st.task_status y = some .CANCELLED)
    (hKnown : ∀ y, Descendant dependents t y →
        alookup st.task_status y = some .PENDING → y ∈ knownIds)
    (hClosed : ∀ x y, alookup st.task_status x = some .CANCELLED → DepEdge dependents x y →
        alookup st.task_status y ≠ some .PENDING) :
    (∀ y, Descendant dependents t y → alookup st.task_status y = some .PENDING →
        alookup (runCancellation dependents knownIds t st).1.task_status y =
            some .CANCELLED ∧
        y ∈ (runCancellation dependents knownIds t st).1.tasks_failed) ∧
    (∀ y, alookup st.task_status y = some .RUNNING →
        alookup (runCancellation dependents knownIds t st).1.task_status y =
            some .RUNNING) := by
  have hq0 : ∀ x ∈ (alookup dependents t).getD [], x ∈ allGraphIds dependents :=
    fun x hx => mem_allGraphIds dependents t x hx
  have hfuel : ((alookup dependents t).getD []).length +
      cancelPotential dependents [t] < cancelFuel dependents t := by
    have := cancelPotential_le dependents [t]
    unfold cancelFuel
    omega
  rcases propagateCancel_spec dependents knownIds (cancelFuel dependents t)
      ((alookup dependents t).getD []) [t] st hq0 hfuel with ⟨a1, a2, b, c, dmono⟩
  have main : ∀ z, DepEdge dependents t z →
      ∀ y, Relation.ReflTransGen (DepEdge dependents) z y →
      alookup st.task_status y = some .PENDING →
      (alookup (propagateCancel dependents knownIds (cancelFuel dependents t)
          ((alookup dependents t).getD []) [t] st).1.task_status y = some .CANCELLED ∧
       y ∈ (propagateCancel dependents knownIds (cancelFuel dependents t)
          ((alookup dependents t).getD []) [t] st).1.tasks_failed ∧
       (∀ w ∈ (alookup dependents y).getD [],
          w ∈ (propagateCancel dependents knownIds (cancelFuel dependents t)
            ((alookup dependents t).getD []) [t] st).2)) := by
    intro z hz y hpath
    induction hpath with
    | refl =>
        intro hp
        have hzV := a1 z hz
        have hzt : z ≠ t := by
          intro he
          rw [he] at hp
          exact hT hp
        have hznv : z ∉ [t] := by simp [hzt]
        have hzk : z ∈ knownIds :=
          hKnown z ⟨z, hz, Relation.ReflTransGen.refl⟩ hp
        exact b z hzV hznv hzk hp
    | tail hzm hmy ihm =>
        intro hp
        rename_i m y2
        have hmdesc : Descendant dependents t m := ⟨z, hz, hzm⟩
        rcases hDesc m hmdesc with hmp | hmc
        · rcases ihm hmp with ⟨_, _, hdeps⟩
          have hyV := hdeps y2 hmy
          have hyt : y2 ≠ t := by
            intro he
            rw [he] at hp
            exact hT hp
          have hyk : y2 ∈ knownIds :=
            hKnown y2 ⟨z, hz, hzm.tail hmy⟩ hp
          exact b y2 hyV (by simp [hyt]) hyk hp
        · exact absurd hp (hClosed m y2 hmc hmy)
  constructor
  · rintro y ⟨z, hz, hpath⟩ hp
    rcases main z hz y hpath hp with ⟨h1, h2, _⟩
    exact ⟨h1, h2⟩
  · intro y hy
    have hne : alookup st.task_status y ≠ some .PENDING := by
      rw [hy]
      intro hc
      cases Option.some.inj hc
    have := c y (Or.inr hne)
    show alookup (propagateCancel dependents knownIds (cancelFuel dependents t)
        ((alookup dependents t).getD []) [t] st).1.task_status y = some .RUNNING
    rw [this, hy]

/-- Witness for C3 at a concrete state: task t has failed and its direct
dependent a is PENDING; after the walk, a is CANCELLED and counted in
tasks_failed. -/
theorem cancellation_completeness_witness :
    alookup (runCancellation [("t", ["a"])] ["a"] "t"
        ⟨[("a", TaskStatus.PENDING)], []⟩).1.task_status "a" = some TaskStatus.CANCELLED ∧
    "a" ∈ (runCancellation [("t", ["a"])] ["a"] "t"
        ⟨[("a", TaskStatus.PENDING)], []⟩).1.tasks_failed := by
  have hreach : ∀ y, Relation.ReflTransGen (DepEdge [("t", ["a"])]) "a" y → y = "a" := by
    intro y h
    induction h with
    | refl => rfl
    | tail hp he ih =>
        rw [ih] at he
        have : DepEdge [("t", ["a"])] "a" _ := he
        unfold DepEdge at this
        simp [alookup] at this
  have hdesc : ∀ y, Descendant [("t", ["a"])] "t" y → y = "a" := by
    rintro y ⟨z, hz, hpath⟩
    unfold DepEdge at hz
    have hz2 : z = "a" := by simpa [alookup] using hz
    rw [hz2] at hpath
    exact hreach y hpath
  refine (cancellation_completeness [("t", ["a"])] ["a"] "t"
      ⟨[("a", TaskStatus.PENDING)], []⟩ (by decide) ?_ ?_ ?_).1 "a"
      ⟨"a", by unfold DepEdge; decide, Relation.ReflTransGen.refl⟩ (by decide)
  · intro y hy
    rw [hdesc y hy]
    left
    decide
  · intro y hy _
    rw [hdesc y hy]
    decide
  · intro x y hx _
    exfalso
    by_cases he : ("a" : String) = x
    · rw [show alookup [("a", TaskStatus.PENDING)] x = some TaskStatus.PENDING by
          simp [alookup, he]] at hx
      cases Option.some.inj hx
    · rw [show alookup [("a", TaskStatus.PENDING)] x = none by simp [alookup, he]] at hx
      cases hx

theorem inv_set_status (s : RunState) (tid : String) (st : TaskStatus)
    (hinv : StatusResultInv s) (hold : alookup s.task_status tid ≠ some .COMPLETED)
    (hnew : st ≠ .COMPLETED) :
    StatusResultInv ⟨s.task_results, ainsert s.task_status tid st⟩ := by
  intro t2
  show (alookup s.task_results t2).isSome ↔ alookup (ainsert s.task_status tid st) t2 = some .COMPLETED
  rw [alookup_ainsert]
  by_cases he : tid = t2
  · subst he
    rw [if_pos rfl]
    constructor
    · intro hr
      exact absurd ((hinv tid).mp hr) hold
    · intro hc
      exact absurd (Option.some.inj hc) hnew
  · rw [if_neg he]
    exact hinv t2

theorem schedStep_preserves_inv (s s2 : RunState) (hstep : SchedStep s s2)
    (hinv : StatusResultInv s) : StatusResultInv s2 := by
  cases hstep with
  | resetState =>
      intro tid
      simp [alookup]
  | initStatus tid h =>
      exact inv_set_status s tid .PENDING hinv (by rw [h]; intro hc; cases hc) (by intro hc; cases hc)
  | submit tid h =>
      exact inv_set_status s tid .RUNNING hinv
        (by rw [h]; intro hc; cases Option.some.inj hc) (by intro hc; cases hc)
  | resolveFailed tid h =>
      exact inv_set_status s tid .FAILED hinv
        (by rw [h]; intro hc; cases Option.some.inj hc) (by intro hc; cases hc)
  | completeFail tid h =>
      exact inv_set_status s tid .FAILED hinv
        (by rw [h]; intro hc; cases Option.some.inj hc) (by intro hc; cases hc)
  | cancelOne tid h =>
      exact inv_set_status s tid .CANCELLED hinv
        (by rw [h]; intro hc; cases Option.some.inj hc) (by intro hc; cases hc)
  | completeOk tid v h =>
      intro t2
      show (alookup (ainsert s.task_results tid v) t2).isSome ↔
        alookup (ainsert s.task_status tid .COMPLETED) t2 = some .COMPLETED
      rw [alookup_ainsert, alookup_ainsert]
      by_cases he : tid = t2
      · rw [if_pos he, if_pos he]
        simp
      · rw [if_neg he, if_neg he]
        exact hinv t2

/-- C10: throughout a run, a fingerprint has an entry in the result map if
and only if its status is COMPLETED: the driver records a result exactly
together with the COMPLETED transition, FAILED and CANCELLED transitions
never touch the result map, and consequently the readiness check that all
dependencies are present in the result map is equivalent to all
dependencies having status COMPLETED. The hypothesis says the state is
reachable from the post-reset empty state by driver mutations, one
constructor of SchedStep per mutation site of Workflow.run. -/
theorem status_result_coupling (s : RunState)
    (h : Relation.ReflTransGen SchedStep ⟨[], []⟩ s) :
    StatusResultInv s ∧
    (∀ deps : List String,
      ((∀ d ∈ deps, (alookup s.task_results d).isSome) ↔
       (∀ d ∈ deps, alookup s.task_status d = some .COMPLETED))) := by
  have hinv : StatusResultInv s := by
    induction h with
    | refl =>
        intro tid
        simp [alookup]
    | tail hsteps hstep ih => exact schedStep_preserves_inv _ _ hstep ih
  exact ⟨hinv, fun deps =>
    ⟨fun ha d hd => (hinv d).mp (ha d hd), fun ha d hd => (hinv d).mpr (ha d hd)⟩⟩

/-- Witness for C10: a concrete three-step run (initialize, submit,
complete) reaches a state where the task t holds result 5 and status
COMPLETED, and the coupling invariant holds there. -/
theorem status_result_coupling_witness :
    StatusResultInv ⟨[("t", Value.vInt 5)], [("t", TaskStatus.COMPLETED)]⟩ :=
  (status_result_coupling ⟨[("t", Value.vInt 5)], [("t", TaskStatus.COMPLETED)]⟩
    (Relation.ReflTransGen.tail
      (Relation.ReflTransGen.tail
        (Relation.ReflTransGen.tail Relation.ReflTransGen.refl
          (SchedStep.initStatus ⟨[], []⟩ "t" rfl))
        (SchedStep.submit ⟨[], [("t", TaskStatus.PENDING)]⟩ "t" rfl))
      (SchedStep.completeOk ⟨[], [("t", TaskStatus.RUNNING)]⟩ "t" (Value.vInt 5) rfl))).1

end PyFlow
